import Mathlib

/-!
Verification of the concurrent email-domain-validation engine
(`email_checker.py`): syntactic address validation, IDNA encoding,
MX-record lookup classification, a shared domain→status cache, and a
semaphore-bounded batch runner.

The Python code is shallowly embedded: the DNS resolver and the IDNA
codec are external collaborators and are modelled as oracle functions
supplied in an environment; everything else (the regex predicate, domain
extraction, the cache discipline of `check_email`, the filtering and
ordering of `check_list`, and the semaphore scheme) is translated
directly from the source.
-/

namespace EmailChecker

/-- The five user-facing statuses of the engine. The Python source uses
five distinct constant strings (`MSG_VALID`, `MSG_NO_DOMAIN`, `MSG_NO_MX`,
`MSG_INVALID_FORMAT`, `MSG_TIMEOUT`); we model them as an enumeration and
keep the concrete strings in `statusMessage`. -/
inductive Status where
  | valid
  | noDomain
  | noMx
  | invalidFormat
  | timeout
deriving DecidableEq, Repr

/-- The constant output strings of the source (`MSG_*`). -/
def statusMessage : Status → String
  | .valid => "домен валиден"
  | .noDomain => "домен отсутствует"
  | .noMx => "MX-записи отсутствуют или некорректны"
  | .invalidFormat => "некорректный формат email"
  | .timeout => "таймаут (проблемы с сетью)"

/-- The configuration constant `CONCURRENCY_LIMIT = 50` of the source. -/
def CONCURRENCY_LIMIT : Nat := 50

/-- ASCII model of the whitespace class used by Python both in `str.strip()`
and in the regex class `\s`: space, tab, newline, carriage return, vertical
tab and form feed. (Python additionally treats some non-ASCII code points
as whitespace; those are outside this model.) -/
def isSpace (c : Char) : Bool :=
  c == ' ' || c == '\t' || c == '\n' || c == '\r' || c == '\x0b' || c == '\x0c'

/-- Python `str.strip()`: drop leading and trailing whitespace. -/
def pyStrip (s : String) : String :=
  String.mk (((s.data.dropWhile isSpace).reverse.dropWhile isSpace).reverse)

/-- A character matched by the regex class `[^@\s]`. -/
def isAtomChar (c : Char) : Bool :=
  !(c == '@') && !(isSpace c)

/-- Matches the regex fragment `[^@\s]+\.[^@\s]+` against an entire
character list: there is a split position `i` holding a literal dot with a
nonempty all-`[^@\s]` run strictly before and strictly after it. -/
def matchDomainPart (cs : List Char) : Bool :=
  (List.range cs.length).any fun i =>
    (!(cs.take i).isEmpty) && (cs.take i).all isAtomChar &&
    (cs.getD i ' ' == '.') &&
    (!(cs.drop (i + 1)).isEmpty) && (cs.drop (i + 1)).all isAtomChar

/-- The source regex `self._email_regex = re.compile(r"^[^@\s]+@[^@\s]+\.[^@\s]+$")`,
applied with `.match` (anchored at both ends; the engine only applies the
regex to stripped strings, so the Python quirk that `$` also matches just
before a trailing newline is unreachable here).  Since `[^@\s]` never
matches `'@'`, any successful match splits the string at its first `'@'`:
a nonempty all-`[^@\s]` local part, the `'@'`, and a domain part matching
`[^@\s]+\.[^@\s]+`. -/
def emailRegexMatches (s : String) : Bool :=
  let cs := s.data
  let lp := cs.takeWhile (fun c => !(c == '@'))
  match cs.dropWhile (fun c => !(c == '@')) with
  | '@' :: dp => (!lp.isEmpty) && lp.all isAtomChar && matchDomainPart dp
  | _ => false

/-- Holds when some `'.'` occurs at a position that is not the last
position of the list. -/
def hasDotNotLast : List Char → Bool
  | [] => false
  | [_] => false
  | c :: b :: rest => (c == '.') || hasDotNotLast (b :: rest)

/-- Holds when some `'.'` occurs at an interior position: neither the
first nor the last character. -/
def hasInteriorDot : List Char → Bool
  | [] => false
  | _ :: rest => hasDotNotLast rest

/-- Python `str.split(sep)` for a one-character separator. -/
def splitOnChar (sep : Char) : List Char → List (List Char)
  | [] => [[]]
  | c :: rest =>
    let r := splitOnChar sep rest
    if c == sep then [] :: r
    else
      match r with
      | g :: gs => (c :: g) :: gs
      | [] => [[c]]

/-- ASCII model of Python `str.lower()` on a character (non-ASCII case
mappings are outside this model); this coincides with `Char.toLower`. -/
def lowerChar (c : Char) : Char := Char.toLower c

/-- ASCII model of Python `str.lower()`. -/
def lowerString (s : String) : String := String.mk (s.data.map lowerChar)

/-- The method `EmailVerifier._extract_domain`:
`email.split("@")[1].lower()`, returning `""` on `IndexError` (fewer than
two fragments). Note Python `split("@")[1]` is the fragment between the
first and second `'@'`. -/
def extractDomain (email : String) : String :=
  match splitOnChar '@' email.data with
  | _ :: d :: _ => lowerString (String.mk d)
  | _ => ""

/-- Outcome of the single `resolver.resolve(encoded_domain, "MX")` call:
either a successful answer carrying some number of records, or one of the
exception classes caught in `_check_dns_mx` (`NXDOMAIN`, `NoAnswer`,
`NoNameservers`, `Timeout`, or any other exception). -/
inductive DnsOutcome where
  | success (records : Nat)
  | nxdomain
  | noAnswer
  | noNameservers
  | timeout
  | otherError
deriving DecidableEq, Repr

/-- External collaborators of the engine, as oracles: `idna d` is the
result of `d.encode("idna").decode("ascii")` (`none` models the caught
`UnicodeError`), and `dns enc` is the outcome of the MX query for the
encoded domain. -/
structure Env where
  idna : String → Option String
  dns : String → DnsOutcome

/-- The `try`/`except` ladder of `_check_dns_mx` below the `resolve`
call: `if answers:` → valid, else no-MX; `NXDOMAIN` → no-domain;
`NoAnswer`/`NoNameservers` → no-MX; `Timeout` → timeout; any other
exception → no-MX. -/
def classify : DnsOutcome → Status
  | .success n => if 0 < n then .valid else .noMx
  | .nxdomain => .noDomain
  | .noAnswer => .noMx
  | .noNameservers => .noMx
  | .timeout => .timeout
  | .otherError => .noMx

/-- Observable actions of one check, used to state the no-network /
no-cache-access properties. -/
inductive Event where
  | cacheRead (domain : String)
  | idnaEncode (domain : String)
  | dnsResolve (encoded : String)
  | cacheWrite (domain : String) (st : Status)
deriving DecidableEq, Repr

/-- The method `EmailVerifier._check_dns_mx`: IDNA-encode the domain (a
`UnicodeError` returns `MSG_NO_DOMAIN` before any resolver call), then
issue the MX query and classify its outcome. Also returns the events it
performs. -/
def checkDnsMx (env : Env) (domain : String) : Status × List Event :=
  match env.idna domain with
  | none => (.noDomain, [.idnaEncode domain])
  | some enc => (classify (env.dns enc), [.idnaEncode domain, .dnsResolve enc])

/-- The domain cache `self._domain_cache : Dict[str, str]`, as an
association list where an insertion shadows older entries (Python dict
assignment semantics). -/
abbrev Cache := List (String × Status)

/-- Dict lookup: first (most recent) binding wins. -/
def cacheLookup (c : Cache) (d : String) : Option Status :=
  match c with
  | [] => none
  | (k, v) :: rest => if k == d then some v else cacheLookup rest d

/-- The `CheckResult` dataclass. -/
structure CheckResult where
  email : String
  status : Status
deriving DecidableEq, Repr

instance : Inhabited CheckResult := ⟨⟨"", .invalidFormat⟩⟩

/-- Output of one `check_email` call: its result, the cache afterwards,
and the events performed. -/
structure CheckOut where
  result : CheckResult
  cache : Cache
  events : List Event
deriving DecidableEq, Repr

/-- The method `EmailVerifier.check_email`: strip; regex check (failure returns
`InvalidFormat` with no cache or network access); extract the domain;
cache lookup under the lock (hit returns the cached status); on a miss,
`_check_dns_mx`, then write the status into the cache under the lock. -/
def checkEmail (env : Env) (cache : Cache) (email : String) : CheckOut :=
  let e := pyStrip email
  if emailRegexMatches e then
    let d := extractDomain e
    match cacheLookup cache d with
    | some st => ⟨⟨e, st⟩, cache, [.cacheRead d]⟩
    | none =>
      let r := checkDnsMx env d
      ⟨⟨e, r.1⟩, (d, r.1) :: cache, .cacheRead d :: r.2 ++ [.cacheWrite d r.1]⟩
  else
    ⟨⟨e, .invalidFormat⟩, cache, []⟩

/-- Output of a batch run. -/
structure BatchOut where
  results : List CheckResult
  cache : Cache
  events : List Event
deriving DecidableEq, Repr

/-- Sequential composition of the scheduled checks of `check_list`
(`asyncio.gather` keeps results in task order, which is the order of the
scheduled inputs). -/
def checkListAux (env : Env) (cache : Cache) : List String → BatchOut
  | [] => ⟨[], cache, []⟩
  | e :: es =>
    let o := checkEmail env cache e
    let b := checkListAux env o.cache es
    ⟨o.result :: b.results, b.cache, o.events ++ b.events⟩

/-- The method `EmailVerifier.check_list`: schedule one check per truthy (non-empty)
input string — `[sem_task(email) for email in emails if email]` — and
gather the results in order. -/
def checkList (env : Env) (cache : Cache) (emails : List String) : BatchOut :=
  checkListAux env cache (emails.filter (fun e => !(e == "")))

/-! ### Interleaving semantics of the concurrent batch

`check_list` runs one `sem_task` per scheduled address on a single-threaded
event loop.  The suspension points of a task are: acquiring the semaphore,
the cache read under the lock (the format check and, on a miss, the IDNA
encoding run synchronously in the same block), the DNS query, and the
cache write under the lock.  Each of these is one atomic step below; a
scheduler chooses the interleaving with a list of labels.  The DNS oracle
may depend on a global clock, modelling that the outcome of a query can depend
on when it completes. -/

/-- Environment for the interleaved semantics: the DNS oracle additionally
sees a clock value, so concurrent queries for one domain may disagree. -/
structure CEnv where
  idna : String → Option String
  dns : Nat → String → DnsOutcome

/-- Control point of one `sem_task`. -/
inductive Phase where
  | waitingSem
  | ready
  | resolving (domain : String) (encoded : String)
  | writing (domain : String) (st : Status)
  | finished (res : CheckResult)
deriving DecidableEq, Repr

/-- One scheduled task. -/
structure Task where
  email : String
  phase : Phase
deriving DecidableEq, Repr

/-- State of a batch run: the tasks, the shared cache, the free permits of
the semaphore, and the clock fed to the DNS oracle. -/
structure Sys where
  tasks : List Task
  cache : Cache
  sem : Nat
  clock : Nat
deriving DecidableEq, Repr

/-- Scheduler choices: which task takes its next atomic step. -/
inductive Label where
  | acquire (i : Nat)
  | runCheck (i : Nat)
  | finishResolve (i : Nat)
  | finishWrite (i : Nat)
deriving DecidableEq, Repr

/-- One atomic step of task `i`; `none` when the label is not enabled.
`acquire`: `async with semaphore` when a permit is free. `runCheck`:
strip, regex check (failure finishes, releasing the permit), cache read
under the lock (hit finishes, releasing the permit), and on a miss the
IDNA encoding (failure proceeds to write `NoDomain`; success starts the
DNS query). `finishResolve`: the DNS query completes and is classified.
`finishWrite`: the cache write under the lock, finishing the task and
releasing the permit. -/
def step (env : CEnv) (l : Label) (s : Sys) : Option Sys :=
  match l with
  | .acquire i =>
    match s.tasks[i]? with
    | some t =>
      match t.phase with
      | .waitingSem =>
        if 0 < s.sem then
          some { s with tasks := s.tasks.set i { t with phase := .ready },
                        sem := s.sem - 1 }
        else none
      | _ => none
    | none => none
  | .runCheck i =>
    match s.tasks[i]? with
    | some t =>
      match t.phase with
      | .ready =>
        let e := pyStrip t.email
        if emailRegexMatches e then
          let d := extractDomain e
          match cacheLookup s.cache d with
          | some st =>
            some { s with tasks := s.tasks.set i { t with phase := .finished ⟨e, st⟩ },
                          sem := s.sem + 1 }
          | none =>
            match env.idna d with
            | none =>
              some { s with tasks := s.tasks.set i { t with phase := .writing d .noDomain } }
            | some enc =>
              some { s with tasks := s.tasks.set i { t with phase := .resolving d enc } }
        else
          some { s with tasks := s.tasks.set i { t with phase := .finished ⟨e, .invalidFormat⟩ },
                        sem := s.sem + 1 }
      | _ => none
    | none => none
  | .finishResolve i =>
    match s.tasks[i]? with
    | some t =>
      match t.phase with
      | .resolving d enc =>
        some { s with tasks := s.tasks.set i
                        { t with phase := .writing d (classify (env.dns s.clock enc)) },
                      clock := s.clock + 1 }
      | _ => none
    | none => none
  | .finishWrite i =>
    match s.tasks[i]? with
    | some t =>
      match t.phase with
      | .writing d st =>
        some { s with tasks := s.tasks.set i
                        { t with phase := .finished ⟨pyStrip t.email, st⟩ },
                      cache := (d, st) :: s.cache,
                      sem := s.sem + 1 }
      | _ => none
    | none => none

/-- Run a finite schedule. -/
def run (env : CEnv) : List Label → Sys → Option Sys
  | [], s => some s
  | l :: ls, s =>
    match step env l s with
    | some s2 => run env ls s2
    | none => none

/-- The start state of `check_list` with concurrency cap `cap`: one
`waitingSem` task per non-empty input, an empty cache, all permits free. -/
def initSys (cap : Nat) (emails : List String) : Sys :=
  ⟨(emails.filter (fun e => !(e == ""))).map (fun e => ⟨e, .waitingSem⟩), [], cap, 0⟩

/-- Phases that hold a semaphore permit. -/
def holdsPermit : Phase → Bool
  | .ready => true
  | .resolving _ _ => true
  | .writing _ _ => true
  | _ => false

/-- Phases with an in-flight resolver call. -/
def isResolving : Phase → Bool
  | .resolving _ _ => true
  | _ => false

/-- Completed tasks. -/
def isFinished : Phase → Bool
  | .finished _ => true
  | _ => false

/-- Number of tasks whose phase satisfies `p`. -/
def countPhase (p : Phase → Bool) (ts : List Task) : Nat :=
  (ts.filter (fun t => p t.phase)).length

/-- Witness environment for the interleaved semantics: identity IDNA
encoding; the first query (clock 0) finds one MX record, later queries
time out. -/
def cenvRace : CEnv :=
  ⟨fun d => some d, fun t _ => if t == 0 then DnsOutcome.success 1 else DnsOutcome.timeout⟩

/-- Witness environment for the interleaved semantics with a
clock-independent resolver. -/
def cenvW : CEnv := ⟨fun d => some d, fun _ _ => DnsOutcome.success 2⟩

/-! ### Predicates used to state the parser and cache claims -/

/-- The acceptance predicate exactly as the spec words it: the trimmed
string has the shape `local-part "@" domain-part`, neither side contains
whitespace or an additional `'@'` (so: exactly one `'@'` and no whitespace
at all), both parts are nonempty, and the domain part contains at least
one `'.'`. -/
def specAccepts (s : String) : Bool :=
  let cs := s.data
  (cs.count '@' == 1) &&
  cs.all (fun c => !(isSpace c)) &&
  (!(cs.takeWhile (fun c => !(c == '@'))).isEmpty) &&
  (!((cs.dropWhile (fun c => !(c == '@'))).tail).isEmpty) &&
  ((cs.dropWhile (fun c => !(c == '@'))).tail).contains '.'

/-- The acceptance predicate the code actually implements: as
`specAccepts`, except that the domain part must contain a `'.'` that is
neither its first nor its last character. -/
def amendedAccepts (s : String) : Bool :=
  let cs := s.data
  (cs.count '@' == 1) &&
  cs.all (fun c => !(isSpace c)) &&
  (!(cs.takeWhile (fun c => !(c == '@'))).isEmpty) &&
  hasInteriorDot ((cs.dropWhile (fun c => !(c == '@'))).tail)

/-- The substring after the first `'@'` (as a character list). -/
def afterFirstAt (s : String) : List Char :=
  (s.data.dropWhile (fun c => !(c == '@'))).tail

/-- Well-formedness of a cache key: non-empty, contains a `'.'`, free of
whitespace and `'@'`, and lower-cased (every character fixed by
lower-casing). -/
def goodKey (d : String) : Bool :=
  (!(d.data.isEmpty)) && d.data.contains '.' &&
  d.data.all (fun c => !(isSpace c) && !(c == '@') && (lowerChar c == c))

/-- Well-formedness of the domain cache: every key is a good key and no
value is the `InvalidFormat` status. -/
def cacheWF (c : Cache) : Prop :=
  ∀ p ∈ c, goodKey p.1 = true ∧ p.2 ≠ Status.invalidFormat

/-! ### Concrete environments used by witnesses -/

/-- Witness environment: identity IDNA encoding, every MX query succeeds
with two records. -/
def envW : Env := ⟨fun d => some d, fun _ => DnsOutcome.success 2⟩

/-- Witness environment: the IDNA encoding always fails. -/
def envBadIdna : Env := ⟨fun _ => none, fun _ => DnsOutcome.otherError⟩

/-! ### Helper lemmas -/

theorem classify_ne_invalidFormat (o : DnsOutcome) :
    classify o ≠ Status.invalidFormat := by
  cases o <;> simp only [classify] <;> (try split) <;> simp

theorem hasDotNotLast_iff (cs : List Char) :
    hasDotNotLast cs = true ↔ ∃ j, j + 1 < cs.length ∧ cs.getD j ' ' = '.' := by
  induction cs with
  | nil => simp [hasDotNotLast]
  | cons a rest ih =>
    cases rest with
    | nil =>
      simp only [hasDotNotLast, List.length_cons, List.length_nil]
      constructor
      · intro h; simp at h
      · rintro ⟨j, hj, _⟩; omega
    | cons b rest2 =>
      simp only [hasDotNotLast, Bool.or_eq_true, beq_iff_eq]
      rw [ih]
      constructor
      · rintro (h | ⟨j, hj, hdot⟩)
        · refine ⟨0, ?_, ?_⟩
          · simp
          · simpa using h
        · refine ⟨j + 1, ?_, ?_⟩
          · simp only [List.length_cons] at hj ⊢; omega
          · simpa using hdot
      · rintro ⟨j, hj, hdot⟩
        cases j with
        | zero => exact Or.inl (by simpa using hdot)
        | succ n =>
          refine Or.inr ⟨n, ?_, ?_⟩
          · simp only [List.length_cons] at hj ⊢; omega
          · simpa using hdot

theorem hasInteriorDot_iff (cs : List Char) :
    hasInteriorDot cs = true ↔
      ∃ i, 1 ≤ i ∧ i + 1 < cs.length ∧ cs.getD i ' ' = '.' := by
  cases cs with
  | nil =>
    simp only [hasInteriorDot, List.length_nil]
    constructor
    · intro h; simp at h
    · rintro ⟨i, _, hi, _⟩; omega
  | cons a rest =>
    simp only [hasInteriorDot]
    rw [hasDotNotLast_iff]
    constructor
    · rintro ⟨j, hj, hdot⟩
      refine ⟨j + 1, Nat.le_add_left 1 j, ?_, ?_⟩
      · simp only [List.length_cons]; omega
      · simpa using hdot
    · rintro ⟨i, h1, hlen, hdot⟩
      cases i with
      | zero => omega
      | succ n =>
        refine ⟨n, ?_, ?_⟩
        · simp only [List.length_cons] at hlen; omega
        · simpa using hdot

theorem matchDomainPart_iff (cs : List Char) :
    matchDomainPart cs = true ↔
      cs.all isAtomChar = true ∧ hasInteriorDot cs = true := by
  rw [hasInteriorDot_iff]
  unfold matchDomainPart
  rw [List.any_eq_true]
  constructor
  · rintro ⟨i, hi, hcond⟩
    rw [List.mem_range] at hi
    simp only [Bool.and_eq_true, Bool.not_eq_true', List.isEmpty_eq_false,
      beq_iff_eq] at hcond
    obtain ⟨⟨⟨⟨htne, htall⟩, hdot⟩, hdne⟩, hdall⟩ := hcond
    have hi1 : 1 ≤ i := by
      rcases Nat.eq_zero_or_pos i with h0 | h0
      · subst h0; simp at htne
      · exact h0
    have hi2 : i + 1 < cs.length := by
      rcases Nat.lt_or_ge (i + 1) cs.length with h2 | h2
      · exact h2
      · exact absurd (List.drop_eq_nil_iff.mpr h2) hdne
    refine ⟨?_, i, hi1, hi2, hdot⟩
    rw [List.all_eq_true]
    intro x hx
    have hx' : x ∈ cs.take i ++ cs.drop i := by
      rw [List.take_append_drop]; exact hx
    rcases List.mem_append.mp hx' with hx1 | hx2
    · exact (List.all_eq_true.mp htall) x hx1
    · rw [List.drop_eq_getElem_cons hi] at hx2
      rcases List.mem_cons.mp hx2 with hx3 | hx4
      · subst hx3
        have : cs.getD i ' ' = cs[i] := by
          simp [List.getD_eq_getElem?_getD, List.getElem?_eq_getElem hi]
        rw [← this, hdot]; rfl
      · exact (List.all_eq_true.mp hdall) x hx4
  · rintro ⟨hall, i, hi1, hi2, hdot⟩
    refine ⟨i, List.mem_range.mpr (by omega), ?_⟩
    simp only [Bool.and_eq_true, Bool.not_eq_true', List.isEmpty_eq_false,
      beq_iff_eq]
    refine ⟨⟨⟨⟨?_, ?_⟩, hdot⟩, ?_⟩, ?_⟩
    · intro h0
      rcases List.take_eq_nil_iff.mp h0 with h | h
      · omega
      · subst h; simp at hi2
    · rw [List.all_eq_true]
      exact fun x hx => (List.all_eq_true.mp hall) x (List.mem_of_mem_take hx)
    · intro h0
      have := List.drop_eq_nil_iff.mp h0
      omega
    · rw [List.all_eq_true]
      exact fun x hx => (List.all_eq_true.mp hall) x (List.mem_of_mem_drop hx)

theorem dropWhile_head_not {α : Type} {p : α → Bool} {l : List α} {a : α}
    {as : List α} (h : l.dropWhile p = a :: as) : p a = false := by
  induction l with
  | nil => simp at h
  | cons x xs ih =>
    rw [List.dropWhile_cons] at h
    by_cases hp : p x = true
    · rw [if_pos hp] at h; exact ih h
    · rw [if_neg hp] at h
      injection h with h1 _
      subst h1
      simp at hp
      exact hp

theorem regex_cons_core (lp dp : List Char)
    (hlp : ∀ x ∈ lp, (x == '@') = false) :
    ((!lp.isEmpty) && lp.all isAtomChar && matchDomainPart dp) =
    (((lp ++ '@' :: dp).count '@' == 1) &&
     (lp ++ '@' :: dp).all (fun c => !(isSpace c)) &&
     (!lp.isEmpty) && hasInteriorDot dp) := by
  have hcount0 : lp.count '@' = 0 := by
    rw [List.count_eq_zero]
    intro hmem
    have h1 := hlp '@' hmem
    simp at h1
  rw [Bool.eq_iff_iff]
  simp only [Bool.and_eq_true, Bool.not_eq_true', List.isEmpty_eq_false,
    matchDomainPart_iff, List.count_append, List.count_cons_self, hcount0,
    Nat.zero_add, List.all_append, List.all_cons, List.all_eq_true, isAtomChar,
    beq_iff_eq]
  constructor
  · rintro ⟨⟨hne, hlpa⟩, hdpa, hint⟩
    refine ⟨⟨⟨?_, ?_, ?_, ?_⟩, hne⟩, hint⟩
    · have hz : List.count '@' dp = 0 := by
        rw [List.count_eq_zero]
        intro hmem
        have h3 := (hdpa '@' hmem).1
        simp at h3
      omega
    · exact fun x hx => (hlpa x hx).2
    · decide
    · exact fun x hx => (hdpa x hx).2
  · rintro ⟨⟨⟨hcnt, hlpq, _, hdpq⟩, hne⟩, hint⟩
    have hdpnc : '@' ∉ dp := List.count_eq_zero.mp (by omega)
    refine ⟨⟨hne, fun x hx => ⟨hlp x hx, hlpq x hx⟩⟩,
      fun x hx => ⟨?_, hdpq x hx⟩, hint⟩
    cases hb : x == '@' with
    | false => rfl
    | true => exact absurd (eq_of_beq hb ▸ hx) hdpnc

theorem emailRegexMatches_eq_amendedAccepts (s : String) :
    emailRegexMatches s = amendedAccepts s := by
  cases h : s.data.dropWhile (fun c => !(c == '@')) with
  | nil =>
    have hcount : s.data.count '@' = 0 := by
      rw [List.count_eq_zero]
      intro hmem
      have h1 := List.dropWhile_eq_nil_iff.mp h '@' hmem
      simp at h1
    simp [emailRegexMatches, amendedAccepts, h, hcount]
  | cons c dp =>
    have hc : c = '@' := by
      have h1 := dropWhile_head_not h
      simpa using h1
    subst hc
    have hsplit : s.data = s.data.takeWhile (fun c => !(c == '@')) ++ '@' :: dp := by
      conv_lhs => rw [← List.takeWhile_append_dropWhile
        (p := fun c => !(c == '@')) (l := s.data)]
      rw [h]
    have hlp : ∀ x ∈ s.data.takeWhile (fun c => !(c == '@')), (x == '@') = false := by
      intro x hx
      have h1 := List.mem_takeWhile_imp hx
      simpa using h1
    calc emailRegexMatches s
        = ((!(s.data.takeWhile (fun c => !(c == '@'))).isEmpty)
            && (s.data.takeWhile (fun c => !(c == '@'))).all isAtomChar
            && matchDomainPart dp) := by
          simp only [emailRegexMatches, h]
      _ = (((s.data.takeWhile (fun c => !(c == '@')) ++ '@' :: dp).count '@' == 1)
            && (s.data.takeWhile (fun c => !(c == '@')) ++ '@' :: dp).all
                (fun c => !(isSpace c))
            && (!(s.data.takeWhile (fun c => !(c == '@'))).isEmpty)
            && hasInteriorDot dp) :=
          regex_cons_core _ dp hlp
      _ = amendedAccepts s := by
          simp only [amendedAccepts, ← hsplit, h, List.tail_cons]

theorem toNat_ofNat_lt {n : Nat} (h : n < 0xd800) : (Char.ofNat n).toNat = n := by
  unfold Char.ofNat
  rw [dif_pos (Or.inl h)]
  rfl

theorem char_eq_iff_toNat {c d : Char} : c = d ↔ c.toNat = d.toNat :=
  ⟨fun h => by rw [h], fun h => Char.ext (UInt32.ext h)⟩

theorem toNat_toLower (c : Char) :
    (Char.toLower c).toNat =
      if 65 ≤ c.toNat ∧ c.toNat ≤ 90 then c.toNat + 32 else c.toNat := by
  unfold Char.toLower
  by_cases h : c.toNat ≥ 65 ∧ c.toNat ≤ 90
  · rw [if_pos h, if_pos ⟨h.1, h.2⟩, toNat_ofNat_lt (by omega)]
  · rw [if_neg h, if_neg (fun hc => h ⟨hc.1, hc.2⟩)]

theorem isSpace_iff_toNat (c : Char) :
    isSpace c = true ↔ (c.toNat = 32 ∨ c.toNat = 9 ∨ c.toNat = 10 ∨
      c.toNat = 13 ∨ c.toNat = 11 ∨ c.toNat = 12) := by
  have h1 : (' ' : Char).toNat = 32 := rfl
  have h2 : ('\t' : Char).toNat = 9 := rfl
  have h3 : ('\n' : Char).toNat = 10 := rfl
  have h4 : ('\r' : Char).toNat = 13 := rfl
  have h5 : ('\x0b' : Char).toNat = 11 := rfl
  have h6 : ('\x0c' : Char).toNat = 12 := rfl
  simp only [isSpace, Bool.or_eq_true, beq_iff_eq, char_eq_iff_toNat,
    h1, h2, h3, h4, h5, h6]
  tauto

theorem lowerChar_isSpace (c : Char) : isSpace (lowerChar c) = isSpace c := by
  rw [Bool.eq_iff_iff, isSpace_iff_toNat, isSpace_iff_toNat]
  unfold lowerChar
  rw [toNat_toLower]
  by_cases h : 65 ≤ c.toNat ∧ c.toNat ≤ 90
  · rw [if_pos h]; omega
  · rw [if_neg h]

theorem lowerChar_beq_at (c : Char) : (lowerChar c == '@') = (c == '@') := by
  have h64 : ('@' : Char).toNat = 64 := rfl
  rw [Bool.eq_iff_iff, beq_iff_eq, beq_iff_eq, char_eq_iff_toNat,
    char_eq_iff_toNat, h64]
  unfold lowerChar
  rw [toNat_toLower]
  by_cases h : 65 ≤ c.toNat ∧ c.toNat ≤ 90
  · rw [if_pos h]; omega
  · rw [if_neg h]

theorem lowerChar_idem (c : Char) : lowerChar (lowerChar c) = lowerChar c := by
  unfold lowerChar
  rw [char_eq_iff_toNat]
  by_cases h : 65 ≤ c.toNat ∧ c.toNat ≤ 90
  · have h2 : (Char.toLower c).toNat = c.toNat + 32 := by
      rw [toNat_toLower, if_pos h]
    rw [toNat_toLower, h2, if_neg (by omega)]
  · have h2 : (Char.toLower c).toNat = c.toNat := by
      rw [toNat_toLower, if_neg h]
    rw [toNat_toLower, h2, if_neg h]

theorem splitOnChar_no_sep (sep : Char) (xs : List Char)
    (h : ∀ x ∈ xs, (x == sep) = false) :
    splitOnChar sep xs = [xs] := by
  induction xs with
  | nil => rfl
  | cons a as ih =>
    have ha := h a (List.mem_cons_self a as)
    have ih2 := ih (fun x hx => h x (List.mem_cons_of_mem a hx))
    simp [splitOnChar, ha, ih2]

theorem splitOnChar_append_sep (sep : Char) (xs ys : List Char)
    (h : ∀ x ∈ xs, (x == sep) = false) :
    splitOnChar sep (xs ++ sep :: ys) = xs :: splitOnChar sep ys := by
  induction xs with
  | nil => simp [splitOnChar]
  | cons a as ih =>
    have ha := h a (List.mem_cons_self a as)
    have ih2 := ih (fun x hx => h x (List.mem_cons_of_mem a hx))
    simp [splitOnChar, ha, ih2]

theorem emailRegexMatches_parts (s : String) (hm : emailRegexMatches s = true) :
    s.data.dropWhile (fun c => !(c == '@')) = '@' :: afterFirstAt s ∧
    (s.data.takeWhile (fun c => !(c == '@'))) ≠ [] ∧
    (afterFirstAt s).all isAtomChar = true ∧
    hasInteriorDot (afterFirstAt s) = true := by
  cases h : s.data.dropWhile (fun c => !(c == '@')) with
  | nil => simp [emailRegexMatches, h] at hm
  | cons c dp =>
    have hc : c = '@' := by simpa using dropWhile_head_not h
    subst hc
    have hats : afterFirstAt s = dp := by rw [afterFirstAt, h, List.tail_cons]
    simp only [emailRegexMatches, h, Bool.and_eq_true, Bool.not_eq_true',
      List.isEmpty_eq_false, matchDomainPart_iff] at hm
    exact ⟨by rw [hats], hm.1.1, by rw [hats]; exact hm.2.1, by rw [hats]; exact hm.2.2⟩

theorem extractDomain_of_match (s : String) (hm : emailRegexMatches s = true) :
    extractDomain s = String.mk ((afterFirstAt s).map lowerChar) := by
  obtain ⟨hdrop, hlpne, hall, _⟩ := emailRegexMatches_parts s hm
  have hlp : ∀ x ∈ s.data.takeWhile (fun c => !(c == '@')), (x == '@') = false := by
    intro x hx
    simpa using List.mem_takeWhile_imp hx
  have hdp : ∀ x ∈ afterFirstAt s, (x == '@') = false := by
    intro x hx
    have h2 := List.all_eq_true.mp hall x hx
    simp only [isAtomChar, Bool.and_eq_true, Bool.not_eq_true'] at h2
    exact h2.1
  have hsplit : s.data
      = s.data.takeWhile (fun c => !(c == '@')) ++ '@' :: afterFirstAt s := by
    conv_lhs => rw [← List.takeWhile_append_dropWhile
      (p := fun c => !(c == '@')) (l := s.data)]
    rw [hdrop]
  have hsp : splitOnChar '@' s.data
      = [s.data.takeWhile (fun c => !(c == '@')), afterFirstAt s] := by
    conv_lhs => rw [hsplit]
    rw [splitOnChar_append_sep '@' _ _ hlp, splitOnChar_no_sep '@' _ hdp]
  rw [extractDomain, hsp]
  rfl

theorem goodKey_extractDomain (s : String) (hm : emailRegexMatches s = true) :
    goodKey (extractDomain s) = true := by
  obtain ⟨_, _, hall, hint⟩ := emailRegexMatches_parts s hm
  rw [extractDomain_of_match s hm]
  have hdata : (String.mk ((afterFirstAt s).map lowerChar)).data
      = (afterFirstAt s).map lowerChar := rfl
  have hne : afterFirstAt s ≠ [] := by
    intro h0
    rw [h0] at hint
    simp [hasInteriorDot] at hint
  obtain ⟨i, hi1, hi2, hdot⟩ := (hasInteriorDot_iff _).mp hint
  have hilt : i < (afterFirstAt s).length := by omega
  have hdotmem : '.' ∈ afterFirstAt s := by
    have : (afterFirstAt s).getD i ' ' = (afterFirstAt s)[i] := by
      simp [List.getD_eq_getElem?_getD, List.getElem?_eq_getElem hilt]
    rw [this] at hdot
    exact hdot ▸ List.getElem_mem hilt
  rw [goodKey]
  simp only [hdata, Bool.and_eq_true, Bool.not_eq_true', List.isEmpty_eq_false,
    List.all_eq_true]
  refine ⟨⟨?_, ?_⟩, ?_⟩
  · exact fun h0 => hne (List.map_eq_nil_iff.mp h0)
  · have hmem : lowerChar '.' ∈ (afterFirstAt s).map lowerChar :=
      List.mem_map_of_mem lowerChar hdotmem
    have hld : lowerChar '.' = '.' := by decide
    rw [hld] at hmem
    rw [List.contains_iff_exists_mem_beq]
    exact ⟨'.', hmem, by simp⟩
  · intro y hy
    obtain ⟨x, hx, hxy⟩ := List.mem_map.mp hy
    have h2 := List.all_eq_true.mp hall x hx
    simp only [isAtomChar, Bool.and_eq_true, Bool.not_eq_true'] at h2
    subst hxy
    refine ⟨⟨?_, ?_⟩, ?_⟩
    · rw [lowerChar_isSpace]; exact h2.2
    · rw [lowerChar_beq_at]; exact h2.1
    · rw [beq_iff_eq]; exact lowerChar_idem x

theorem checkDnsMx_ne_invalidFormat (env : Env) (d : String) :
    (checkDnsMx env d).1 ≠ Status.invalidFormat := by
  cases hi : env.idna d with
  | none => simp [checkDnsMx, hi]
  | some enc => simpa [checkDnsMx, hi] using classify_ne_invalidFormat (env.dns enc)

theorem countPhase_cons (p : Phase → Bool) (t : Task) (ts : List Task) :
    countPhase p (t :: ts) = countPhase p ts + (if p t.phase then 1 else 0) := by
  simp only [countPhase, List.filter_cons]
  split <;> simp

theorem countPhase_set (p : Phase → Bool) (ts : List Task) (i : Nat) (t u : Task)
    (h : ts[i]? = some t) :
    countPhase p (ts.set i u) + (if p t.phase then 1 else 0)
      = countPhase p ts + (if p u.phase then 1 else 0) := by
  induction ts generalizing i with
  | nil => simp at h
  | cons a as ih =>
    cases i with
    | zero =>
      simp only [List.getElem?_cons_zero, Option.some.injEq] at h
      subst h
      rw [List.set_cons_zero, countPhase_cons, countPhase_cons]
      omega
    | succ n =>
      simp only [List.getElem?_cons_succ] at h
      rw [List.set_cons_succ, countPhase_cons, countPhase_cons]
      have h2 := ih n h
      omega

theorem countPhase_mono {p q : Phase → Bool}
    (hpq : ∀ ph, p ph = true → q ph = true) (ts : List Task) :
    countPhase p ts ≤ countPhase q ts := by
  induction ts with
  | nil => simp [countPhase]
  | cons a as ih =>
    rw [countPhase_cons, countPhase_cons]
    by_cases hp : p a.phase = true
    · rw [if_pos hp, if_pos (hpq _ hp)]; omega
    · rw [if_neg hp]; split <;> omega

theorem semInv_set (cap : Nat) (s : Sys) (i : Nat) (t u : Task) (newSem : Nat)
    (h : s.tasks[i]? = some t)
    (hinv : s.sem + countPhase holdsPermit s.tasks = cap)
    (hbal : newSem + (if holdsPermit u.phase then 1 else 0)
          = s.sem + (if holdsPermit t.phase then 1 else 0)) :
    newSem + countPhase holdsPermit (s.tasks.set i u) = cap := by
  have hset := countPhase_set holdsPermit s.tasks i t u h
  omega

theorem step_semInv (cap : Nat) (env : CEnv) (l : Label) (s s2 : Sys)
    (hs : step env l s = some s2)
    (hinv : s.sem + countPhase holdsPermit s.tasks = cap) :
    s2.sem + countPhase holdsPermit s2.tasks = cap := by
  cases l with
  | acquire i =>
    simp only [step] at hs
    split at hs
    case _ t h =>
      split at hs
      case _ hph =>
        split at hs
        case isTrue hsem =>
          simp only [Option.some.injEq] at hs
          subst hs
          exact semInv_set cap s i t _ _ h hinv
            (by simp [holdsPermit, hph]; omega)
        case isFalse => cases hs
      case _ => cases hs
    case _ => cases hs
  | runCheck i =>
    simp only [step] at hs
    split at hs
    case _ t h =>
      split at hs
      case _ hph =>
        split at hs
        case isTrue =>
          split at hs
          case _ st hcl =>
            simp only [Option.some.injEq] at hs
            subst hs
            exact semInv_set cap s i t _ _ h hinv
              (by simp [holdsPermit, hph])
          case _ hcl =>
            split at hs
            case _ hid =>
              simp only [Option.some.injEq] at hs
              subst hs
              exact semInv_set cap s i t _ _ h hinv
                (by simp [holdsPermit, hph])
            case _ enc hid =>
              simp only [Option.some.injEq] at hs
              subst hs
              exact semInv_set cap s i t _ _ h hinv
                (by simp [holdsPermit, hph])
        case isFalse =>
          simp only [Option.some.injEq] at hs
          subst hs
          exact semInv_set cap s i t _ _ h hinv
            (by simp [holdsPermit, hph])
      case _ => cases hs
    case _ => cases hs
  | finishResolve i =>
    simp only [step] at hs
    split at hs
    case _ t h =>
      split at hs
      case _ d enc hph =>
        simp only [Option.some.injEq] at hs
        subst hs
        exact semInv_set cap s i t _ _ h hinv
          (by simp [holdsPermit, hph])
      case _ => cases hs
    case _ => cases hs
  | finishWrite i =>
    simp only [step] at hs
    split at hs
    case _ t h =>
      split at hs
      case _ d st hph =>
        simp only [Option.some.injEq] at hs
        subst hs
        exact semInv_set cap s i t _ _ h hinv
          (by simp [holdsPermit, hph])
      case _ => cases hs
    case _ => cases hs

theorem run_semInv (cap : Nat) (env : CEnv) (labels : List Label) :
    ∀ s s2, run env labels s = some s2 →
      s.sem + countPhase holdsPermit s.tasks = cap →
      s2.sem + countPhase holdsPermit s2.tasks = cap := by
  induction labels with
  | nil =>
    intro s s2 h hi
    simp only [run, Option.some.injEq] at h
    subst h
    exact hi
  | cons l ls ih =>
    intro s s2 h hi
    simp only [run] at h
    cases hst : step env l s with
    | none => rw [hst] at h; cases h
    | some s1 =>
      rw [hst] at h
      exact ih s1 s2 h (step_semInv cap env l s s1 hst hi)

theorem initSys_semInv (cap : Nat) (emails : List String) :
    (initSys cap emails).sem
      + countPhase holdsPermit (initSys cap emails).tasks = cap := by
  have hz : ∀ l : List String,
      countPhase holdsPermit (l.map (fun e => ⟨e, .waitingSem⟩)) = 0 := by
    intro l
    induction l with
    | nil => simp [countPhase]
    | cons a as ih =>
      rw [List.map_cons, countPhase_cons, ih]
      simp [holdsPermit]
  simp only [initSys]
  rw [hz]
  omega

theorem exists_holder_of_countPos (ts : List Task)
    (h : 0 < countPhase holdsPermit ts) :
    ∃ (j : Nat) (u : Task), ts[j]? = some u ∧ holdsPermit u.phase = true := by
  induction ts with
  | nil => simp [countPhase] at h
  | cons a as ih =>
    by_cases hp : holdsPermit a.phase = true
    · exact ⟨0, a, by simp, hp⟩
    · rw [countPhase_cons, if_neg hp] at h
      obtain ⟨j, u, hj, hu⟩ := ih (by omega)
      exact ⟨j + 1, u, by simpa using hj, hu⟩

theorem holder_none_of_countZero (ts : List Task)
    (h : countPhase holdsPermit ts = 0) :
    ∀ (j : Nat) (u : Task), ts[j]? = some u → holdsPermit u.phase = false := by
  induction ts with
  | nil => intro j u hj; simp at hj
  | cons a as ih =>
    intro j u hj
    rw [countPhase_cons] at h
    cases j with
    | zero =>
      simp only [List.getElem?_cons_zero, Option.some.injEq] at hj
      subst hj
      by_cases hp : holdsPermit a.phase = true
      · rw [if_pos hp] at h; omega
      · simpa using hp
    | succ n =>
      simp only [List.getElem?_cons_succ] at hj
      exact ih (by omega) n u hj

theorem acquire_isSome (env : CEnv) (s : Sys) (i : Nat) (t : Task)
    (h : s.tasks[i]? = some t) (hph : t.phase = .waitingSem)
    (hsem : 0 < s.sem) : (step env (Label.acquire i) s).isSome = true := by
  simp [step, h, hph, hsem]

theorem runCheck_isSome (env : CEnv) (s : Sys) (i : Nat) (t : Task)
    (h : s.tasks[i]? = some t) (hph : t.phase = .ready) :
    (step env (Label.runCheck i) s).isSome = true := by
  simp only [step, h, hph]
  (repeat' split) <;> simp

theorem finishResolve_isSome (env : CEnv) (s : Sys) (i : Nat) (t : Task)
    (d enc : String) (h : s.tasks[i]? = some t)
    (hph : t.phase = .resolving d enc) :
    (step env (Label.finishResolve i) s).isSome = true := by
  simp [step, h, hph]

theorem finishWrite_isSome (env : CEnv) (s : Sys) (i : Nat) (t : Task)
    (d : String) (st : Status) (h : s.tasks[i]? = some t)
    (hph : t.phase = .writing d st) :
    (step env (Label.finishWrite i) s).isSome = true := by
  simp [step, h, hph]

/-! ### Claims -/

/-- C1: `_check_dns_mx` always returns one of the four domain statuses
(never `InvalidFormat`, no uncaught failure): an IDNA failure yields
`NoDomain` before any query; a successful query yields `Valid` when it has
one or more records and `NoMx` at zero records; `NXDOMAIN` yields
`NoDomain`; `NoAnswer`/`NoNameservers` yield `NoMx`; a timeout yields
`Timeout`; any other resolver failure yields `NoMx`. -/
theorem checkDnsMx_outcome_mapping (env : Env) (d : String) :
    (checkDnsMx env d).1 ≠ Status.invalidFormat ∧
    (env.idna d = none → (checkDnsMx env d).1 = Status.noDomain) ∧
    ∀ enc, env.idna d = some enc →
      ((∀ n, env.dns enc = DnsOutcome.success n →
          (checkDnsMx env d).1 = if 0 < n then Status.valid else Status.noMx) ∧
       (env.dns enc = DnsOutcome.nxdomain → (checkDnsMx env d).1 = Status.noDomain) ∧
       (env.dns enc = DnsOutcome.noAnswer → (checkDnsMx env d).1 = Status.noMx) ∧
       (env.dns enc = DnsOutcome.noNameservers → (checkDnsMx env d).1 = Status.noMx) ∧
       (env.dns enc = DnsOutcome.timeout → (checkDnsMx env d).1 = Status.timeout) ∧
       (env.dns enc = DnsOutcome.otherError → (checkDnsMx env d).1 = Status.noMx)) := by
  refine ⟨?_, ?_, ?_⟩
  · cases h : env.idna d with
    | none => simp [checkDnsMx, h]
    | some enc =>
      simpa [checkDnsMx, h] using classify_ne_invalidFormat (env.dns enc)
  · intro h
    simp [checkDnsMx, h]
  · intro enc h
    refine ⟨?_, ?_, ?_, ?_, ?_, ?_⟩ <;>
      first
        | (intro n hn; simp [checkDnsMx, h, hn, classify])
        | (intro hn; simp [checkDnsMx, h, hn, classify])

/-- Witness for C1 at a concrete environment and domain. -/
theorem checkDnsMx_outcome_mapping_witness :
    (checkDnsMx envW "a.com").1 ≠ Status.invalidFormat ∧
    (checkDnsMx envW "a.com").1 = if 0 < 2 then Status.valid else Status.noMx :=
  ⟨(checkDnsMx_outcome_mapping envW "a.com").1,
   (((checkDnsMx_outcome_mapping envW "a.com").2.2 "a.com" rfl).1 2 rfl)⟩

/-- C2: when the trimmed input fails the syntactic regex, `check_email`
returns `InvalidFormat` immediately, leaving the cache unchanged and
performing no cache read, no cache write and no resolver call (the event
trace is empty). -/
theorem checkEmail_invalid_format_no_effects (env : Env) (cache : Cache) (e : String)
    (h : emailRegexMatches (pyStrip e) = false) :
    checkEmail env cache e = ⟨⟨pyStrip e, Status.invalidFormat⟩, cache, []⟩ := by
  simp [checkEmail, h]

/-- Witness for C2 on a concrete malformed address. -/
theorem checkEmail_invalid_format_no_effects_witness :
    checkEmail envW [] "no-at-sign" =
      ⟨⟨pyStrip "no-at-sign", Status.invalidFormat⟩, [], []⟩ :=
  checkEmail_invalid_format_no_effects envW [] "no-at-sign" (by decide)

/-- C3: checking the same address twice in sequence yields the same
status both times, and the second call performs no resolver invocation. -/
theorem checkEmail_idempotent (env : Env) (cache : Cache) (e : String) :
    (checkEmail env (checkEmail env cache e).cache e).result.status
        = (checkEmail env cache e).result.status ∧
    ∀ ev ∈ (checkEmail env (checkEmail env cache e).cache e).events,
      ∀ enc, ev ≠ Event.dnsResolve enc := by
  cases h : emailRegexMatches (pyStrip e) with
  | false => simp [checkEmail, h]
  | true =>
    cases hl : cacheLookup cache (extractDomain (pyStrip e)) with
    | some st => simp [checkEmail, h, hl]
    | none => simp [checkEmail, h, hl, cacheLookup]

/-- Witness for C3 at a concrete address: the repeated check returns the
same status, and a concrete event of the second check is not a resolver
call. -/
theorem checkEmail_idempotent_witness :
    (checkEmail envW (checkEmail envW [] "a@b.c").cache "a@b.c").result.status
        = (checkEmail envW [] "a@b.c").result.status ∧
    Event.cacheRead "b.c" ≠ Event.dnsResolve "b.c" :=
  ⟨(checkEmail_idempotent envW [] "a@b.c").1,
   (checkEmail_idempotent envW [] "a@b.c").2 (Event.cacheRead "b.c")
     (by decide) "b.c"⟩

/-- C7 counterexample: the `email` field of the returned `CheckResult` is
the stripped address, not the original input string. -/
theorem checkEmail_email_field_counterexample :
    (checkEmail envW [] " a@b.c ").result.email ≠ " a@b.c " := by decide

/-- C7 amended: the result maps the *trimmed* input string to a status;
the email field equals the original input exactly when the input carries
no surrounding whitespace. -/
theorem checkEmail_email_field_is_trimmed (env : Env) (cache : Cache) (e : String) :
    (checkEmail env cache e).result.email = pyStrip e ∧
    (pyStrip e = e → (checkEmail env cache e).result.email = e) := by
  have h1 : (checkEmail env cache e).result.email = pyStrip e := by
    cases h : emailRegexMatches (pyStrip e) with
    | false => simp [checkEmail, h]
    | true =>
      cases hl : cacheLookup cache (extractDomain (pyStrip e)) <;>
        simp [checkEmail, h, hl]
  exact ⟨h1, fun hs => h1.trans hs⟩

/-- Witness for C7 amended at a concrete already-trimmed input. -/
theorem checkEmail_email_field_is_trimmed_witness :
    (checkEmail envW [] "a@b.c").result.email = "a@b.c" :=
  (checkEmail_email_field_is_trimmed envW [] "a@b.c").2 (by decide)

/-- C4: for a syntactically valid address whose parsed domain fails the
IDNA encoding, provided the engine has not previously cached a different
status for that domain (which cannot happen in a run from a fresh engine,
the encoder being deterministic), the check returns `NoDomain`, issues no
DNS query, leaves the cache mapping the parsed domain to `NoDomain`, and
a later duplicate is answered from the cache without re-encoding. -/
theorem checkEmail_idna_failure (env : Env) (cache : Cache) (e : String)
    (hm : emailRegexMatches (pyStrip e) = true)
    (henc : env.idna (extractDomain (pyStrip e)) = none)
    (hc : cacheLookup cache (extractDomain (pyStrip e)) = none ∨
          cacheLookup cache (extractDomain (pyStrip e)) = some Status.noDomain) :
    (checkEmail env cache e).result.status = Status.noDomain ∧
    (∀ ev ∈ (checkEmail env cache e).events, ∀ enc, ev ≠ Event.dnsResolve enc) ∧
    cacheLookup (checkEmail env cache e).cache (extractDomain (pyStrip e))
        = some Status.noDomain ∧
    (checkEmail env (checkEmail env cache e).cache e).events
        = [Event.cacheRead (extractDomain (pyStrip e))] := by
  rcases hc with hc | hc <;>
    simp [checkEmail, hm, hc, checkDnsMx, henc, cacheLookup]

/-- Witness for C4: a concrete valid-shaped address whose domain the
encoder rejects. -/
theorem checkEmail_idna_failure_witness :
    (checkEmail envBadIdna [] "a@b.c").result.status = Status.noDomain ∧
    cacheLookup (checkEmail envBadIdna [] "a@b.c").cache
        (extractDomain (pyStrip "a@b.c")) = some Status.noDomain ∧
    (checkEmail envBadIdna (checkEmail envBadIdna [] "a@b.c").cache "a@b.c").events
        = [Event.cacheRead (extractDomain (pyStrip "a@b.c"))] :=
  ⟨(checkEmail_idna_failure envBadIdna [] "a@b.c" (by decide) rfl (Or.inl rfl)).1,
   (checkEmail_idna_failure envBadIdna [] "a@b.c" (by decide) rfl (Or.inl rfl)).2.2.1,
   (checkEmail_idna_failure envBadIdna [] "a@b.c" (by decide) rfl (Or.inl rfl)).2.2.2⟩

/-- One sequential check never disturbs an existing cache binding:
`check_email` only writes to the cache on a lookup miss. -/
theorem cacheLookup_checkEmail_preserved (env : Env) (cache : Cache) (e : String)
    {d : String} {st : Status} (h : cacheLookup cache d = some st) :
    cacheLookup (checkEmail env cache e).cache d = some st := by
  cases hm : emailRegexMatches (pyStrip e) with
  | false => simpa [checkEmail, hm] using h
  | true =>
    cases hl : cacheLookup cache (extractDomain (pyStrip e)) with
    | some st' => simpa [checkEmail, hm, hl] using h
    | none =>
      have hne : (extractDomain (pyStrip e) == d) = false := by
        cases hb : extractDomain (pyStrip e) == d with
        | false => rfl
        | true => rw [eq_of_beq hb] at hl; rw [hl] at h; cases h
      simpa [checkEmail, hm, hl, cacheLookup, hne] using h

/-- Same preservation over a whole scheduled batch. -/
theorem cacheLookup_checkListAux_preserved (env : Env) (es : List String)
    (cache : Cache) {d : String} {st : Status} (h : cacheLookup cache d = some st) :
    cacheLookup (checkListAux env cache es).cache d = some st := by
  induction es generalizing cache with
  | nil => simpa [checkListAux] using h
  | cons e es ih =>
    simpa [checkListAux] using
      ih (checkEmail env cache e).cache (cacheLookup_checkEmail_preserved env cache e h)

/-- C5 amended: in a sequential run, once a status is bound to a domain in
the cache, no later `check_email` of the batch changes it (a check writes
only on a lookup miss).  Under concurrent interleavings the double-miss
race can overwrite an entry — see the counterexample. -/
theorem cache_entry_immutable_sequential (env : Env) (cache : Cache)
    (emails : List String) {d : String} {st : Status}
    (h : cacheLookup cache d = some st) :
    cacheLookup (checkList env cache emails).cache d = some st :=
  cacheLookup_checkListAux_preserved env _ cache h

/-- C5 counterexample: under a concurrent interleaving in which two tasks
for the same fresh domain both miss the cache before either writes (the
double-miss race the engine permits), the entry for `"x.com"` is first
written as `Valid` and then overwritten as `Timeout` by the later write of
the same run. -/
theorem cache_entry_overwritten_counterexample :
    ((run cenvRace
        [.acquire 0, .acquire 1, .runCheck 0, .runCheck 1,
         .finishResolve 0, .finishResolve 1, .finishWrite 0]
        (initSys 2 ["a@x.com", "b@x.com"])).map
      (fun s => cacheLookup s.cache "x.com") = some (some Status.valid)) ∧
    ((run cenvRace
        [.acquire 0, .acquire 1, .runCheck 0, .runCheck 1,
         .finishResolve 0, .finishResolve 1, .finishWrite 0, .finishWrite 1]
        (initSys 2 ["a@x.com", "b@x.com"])).map
      (fun s => cacheLookup s.cache "x.com") = some (some Status.timeout)) := by
  exact ⟨by decide, by decide⟩

/-- Witness for C5 amended: a pre-seeded entry survives a batch touching
the same domain. -/
theorem cache_entry_immutable_sequential_witness :
    cacheLookup (checkList envW [("x.com", Status.noMx)]
        ["a@x.com", "b@x.com"]).cache "x.com" = some Status.noMx :=
  cache_entry_immutable_sequential envW [("x.com", Status.noMx)]
    ["a@x.com", "b@x.com"] rfl

/-- The batch produces one result per scheduled input. -/
theorem checkListAux_length (env : Env) (es : List String) (cache : Cache) :
    (checkListAux env cache es).results.length = es.length := by
  induction es generalizing cache with
  | nil => simp [checkListAux]
  | cons e es ih => simp [checkListAux, ih]

/-- The `i`-th result of the batch is the result of checking the `i`-th
scheduled input in the cache state reached after the first `i` checks. -/
theorem checkListAux_getD (env : Env) (es : List String) (cache : Cache)
    (i : Nat) (h : i < es.length) :
    (checkListAux env cache es).results.getD i default =
      (checkEmail env (checkListAux env cache (es.take i)).cache
        (es.getD i "")).result := by
  induction es generalizing cache i with
  | nil => simp at h
  | cons e es ih =>
    cases i with
    | zero => simp [checkListAux]
    | succ n =>
      have hn : n < es.length := by simpa using h
      simpa [checkListAux] using ih (checkEmail env cache e).cache n hn

/-- C6: `check_list` schedules exactly one check per non-empty input
(empty strings are filtered out and produce no result) and its result
sequence corresponds one-to-one, in order, with the scheduled inputs: the
`i`-th result is the check of the `i`-th non-empty input. -/
theorem checkList_one_to_one (env : Env) (cache : Cache) (emails : List String) :
    (checkList env cache emails).results.length
        = (emails.filter (fun e => !(e == ""))).length ∧
    ∀ i, i < (emails.filter (fun e => !(e == ""))).length →
      (checkList env cache emails).results.getD i default =
        (checkEmail env
          (checkListAux env cache ((emails.filter (fun e => !(e == ""))).take i)).cache
          ((emails.filter (fun e => !(e == ""))).getD i "")).result :=
  ⟨checkListAux_length env _ cache,
   fun i h => checkListAux_getD env _ cache i h⟩

/-- Witness for C6: the empty string is skipped and the two non-empty
inputs produce the first and second results. -/
theorem checkList_one_to_one_witness :
    (checkList envW [] ["a@x.com", "", "bad"]).results.length
        = (["a@x.com", "", "bad"].filter (fun e => !(e == ""))).length ∧
    (checkList envW [] ["a@x.com", "", "bad"]).results.getD 1 default =
      (checkEmail envW
        (checkListAux envW []
          ((["a@x.com", "", "bad"].filter (fun e => !(e == ""))).take 1)).cache
        ((["a@x.com", "", "bad"].filter (fun e => !(e == ""))).getD 1 "")).result :=
  ⟨(checkList_one_to_one envW [] ["a@x.com", "", "bad"]).1,
   (checkList_one_to_one envW [] ["a@x.com", "", "bad"]).2 1 (by decide)⟩

/-- C8 counterexample: the acceptance predicate of the spec (domain part must
contain at least one `'.'`) accepts `"a@b."`, but the implemented regex
rejects it, because the regex additionally requires a non-dot-adjacent
character after the dot (`[^@\s]+\.[^@\s]+`). -/
theorem parser_predicate_counterexample :
    specAccepts (pyStrip "a@b.") = true ∧
    emailRegexMatches (pyStrip "a@b.") = false := by
  exact ⟨by decide, by decide⟩

/-- C8 amended: the parser accepts exactly the trimmed strings of shape
`local-part "@" domain-part` with no whitespace, no additional `'@'`, a
nonempty local part, and a `'.'` in the domain part that is neither its
first nor its last character; on acceptance the parsed domain is the
substring after the first `'@'`, lower-cased. -/
theorem parser_accepts_iff_amended (raw : String) :
    emailRegexMatches (pyStrip raw) = amendedAccepts (pyStrip raw) ∧
    (emailRegexMatches (pyStrip raw) = true →
      extractDomain (pyStrip raw)
        = String.mk ((afterFirstAt (pyStrip raw)).map lowerChar)) :=
  ⟨emailRegexMatches_eq_amendedAccepts _,
   fun hm => extractDomain_of_match _ hm⟩

/-- Witness for C8 amended: a concrete accepted address with an
upper-case domain. -/
theorem parser_accepts_iff_amended_witness :
    extractDomain (pyStrip " a@B.c ")
      = String.mk ((afterFirstAt (pyStrip " a@B.c ")).map lowerChar) :=
  (parser_accepts_iff_amended " a@B.c ").2 (by decide)

/-- C10: `check_email` preserves well-formedness of the domain cache:
every key is a non-empty, lower-cased string containing a `'.'` and free
of whitespace and `'@'`, and every value is one of the four domain
statuses — `InvalidFormat` is never written. -/
theorem checkEmail_preserves_cacheWF (env : Env) (cache : Cache) (e : String)
    (h : cacheWF cache) : cacheWF (checkEmail env cache e).cache := by
  cases hm : emailRegexMatches (pyStrip e) with
  | false => simpa [checkEmail, hm] using h
  | true =>
    cases hl : cacheLookup cache (extractDomain (pyStrip e)) with
    | some st => simpa [checkEmail, hm, hl] using h
    | none =>
      intro p hp
      have hcc : (checkEmail env cache e).cache =
          (extractDomain (pyStrip e),
            (checkDnsMx env (extractDomain (pyStrip e))).1) :: cache := by
        simp [checkEmail, hm, hl]
      rw [hcc] at hp
      rcases List.mem_cons.mp hp with hp1 | hp2
      · subst hp1
        exact ⟨goodKey_extractDomain _ hm, checkDnsMx_ne_invalidFormat env _⟩
      · exact h p hp2

/-- Witness for C10 on a concrete well-formed cache and fresh domain. -/
theorem checkEmail_preserves_cacheWF_witness :
    cacheWF (checkEmail envW [("x.com", Status.valid)] "A@New.Org").cache :=
  checkEmail_preserves_cacheWF envW [("x.com", Status.valid)] "A@New.Org"
    (by unfold cacheWF; decide)

/-- C9: in every state reachable from the start of a batch under any
scheduling, the number of in-flight resolver calls never exceeds the
semaphore cap (each resolving task holds one of the `cap` permits), and
whenever the cap is at least 1 and some task is unfinished, some step is
enabled — the semaphore scheme cannot deadlock, in particular at cap 1:
waiting tasks can always acquire a permit once no task holds one. -/
theorem checkList_concurrency_cap (cap : Nat) (env : CEnv)
    (emails : List String) (labels : List Label) (s : Sys)
    (hrun : run env labels (initSys cap emails) = some s) :
    countPhase isResolving s.tasks ≤ cap ∧
    (1 ≤ cap →
      (∃ (i : Nat) (t : Task), s.tasks[i]? = some t ∧ isFinished t.phase = false) →
      ∃ (l : Label) (s2 : Sys), step env l s = some s2) := by
  have hinv := run_semInv cap env labels (initSys cap emails) s hrun
    (initSys_semInv cap emails)
  constructor
  · have hmono : countPhase isResolving s.tasks ≤ countPhase holdsPermit s.tasks :=
      countPhase_mono
        (fun ph hp => by cases ph <;> simp_all [isResolving, holdsPermit]) s.tasks
    omega
  · rintro hcap ⟨i, t, hit, hnf⟩
    by_cases hpos : 0 < countPhase holdsPermit s.tasks
    · obtain ⟨j, u, hj, hu⟩ := exists_holder_of_countPos s.tasks hpos
      cases hph : u.phase with
      | waitingSem => rw [hph] at hu; simp [holdsPermit] at hu
      | finished r => rw [hph] at hu; simp [holdsPermit] at hu
      | ready =>
        obtain ⟨s2, h2⟩ := Option.isSome_iff_exists.mp
          (runCheck_isSome env s j u hj hph)
        exact ⟨Label.runCheck j, s2, h2⟩
      | resolving d enc =>
        obtain ⟨s2, h2⟩ := Option.isSome_iff_exists.mp
          (finishResolve_isSome env s j u d enc hj hph)
        exact ⟨Label.finishResolve j, s2, h2⟩
      | writing d st =>
        obtain ⟨s2, h2⟩ := Option.isSome_iff_exists.mp
          (finishWrite_isSome env s j u d st hj hph)
        exact ⟨Label.finishWrite j, s2, h2⟩
    · have hz : countPhase holdsPermit s.tasks = 0 := by omega
      have hnp := holder_none_of_countZero s.tasks hz i t hit
      have hwait : t.phase = Phase.waitingSem := by
        cases hph : t.phase with
        | waitingSem => rfl
        | ready => rw [hph] at hnp; simp [holdsPermit] at hnp
        | resolving d enc => rw [hph] at hnp; simp [holdsPermit] at hnp
        | writing d st => rw [hph] at hnp; simp [holdsPermit] at hnp
        | finished r => rw [hph] at hnf; simp [isFinished] at hnf
      have hsem : 0 < s.sem := by omega
      obtain ⟨s2, h2⟩ := Option.isSome_iff_exists.mp
        (acquire_isSome env s i t hit hwait hsem)
      exact ⟨Label.acquire i, s2, h2⟩

/-- Witness for C9: the in-flight bound at the default cap of 50 and at
cap 1, for a concrete batch, with the run hypothesis discharged on the
empty schedule. -/
theorem checkList_concurrency_cap_witness :
    countPhase isResolving (initSys CONCURRENCY_LIMIT ["a@b.c", "d@e.f"]).tasks
        ≤ CONCURRENCY_LIMIT ∧
    countPhase isResolving (initSys 1 ["a@b.c", "d@e.f"]).tasks ≤ 1 :=
  ⟨(checkList_concurrency_cap CONCURRENCY_LIMIT cenvW ["a@b.c", "d@e.f"] [] _ rfl).1,
   (checkList_concurrency_cap 1 cenvW ["a@b.c", "d@e.f"] [] _ rfl).1⟩

end EmailChecker
